import Mathlib

/-!
Verification development for `TFIM/TFIM_chiF.py`: four evaluators of the
fidelity susceptibility chi_F(g) of the 1D transverse-field Ising model,
and the parameter-sweep driver.

Machine reals are modelled by exact rationals; the external numerical
primitives (torch.symeig, the dominant-eigenpair primitives, the CG solver,
torch.autograd) are modelled as pure oracles or as second-order jets of the
eigenpair path, as recorded in the doc comments of the individual
definitions.
-/

open Matrix

/-- Modelled from the spec and the Hamiltonian formula printed by the script
(`H = - sum_i (g sigma_i^x + sigma_i^z sigma_{i+1}^z)`): the basis of the
`2^N`-dimensional Hilbert space is indexed by bit strings, and
`sigma_i^x` flips bit `i`. -/
def flipBit (N : ℕ) (i : Fin N) (a : Fin (2 ^ N)) : Fin (2 ^ N) :=
  ⟨a.val ^^^ 2 ^ i.val, Nat.xor_lt_two_pow a.isLt (Nat.pow_lt_pow_right one_lt_two i.isLt)⟩

/-- Modelled from the spec: the matrix of `sigma_i^x` in the computational
basis (entry `(a, b)` is `1` exactly when `b` is `a` with bit `i` flipped). -/
def sxMat (N : ℕ) (i : Fin N) : Matrix (Fin (2 ^ N)) (Fin (2 ^ N)) ℚ :=
  fun a b => if b = flipBit N i a then 1 else 0

/-- Modelled from the spec: the diagonal entry of `sigma_i^z` on basis state
`a` is `-1` when bit `i` of `a` is set and `1` otherwise. -/
def zsign (i : ℕ) (a : ℕ) : ℚ :=
  if a.testBit i then -1 else 1

/-- Modelled from the spec: the (diagonal) matrix of
`sigma_i^z sigma_{(i+1) mod N}^z`. -/
def szszMat (N : ℕ) (i : Fin N) : Matrix (Fin (2 ^ N)) (Fin (2 ^ N)) ℚ :=
  Matrix.diagonal fun a => zsign i.val a.val * zsign ((i.val + 1) % N) a.val

/-- Modelled from the spec: the dense TFIM Hamiltonian
`H(g) = - sum_i (g sigma_i^x + sigma_i^z sigma_{i+1}^z)`,
built by `TFIM.setHmatrix` (the `TFIM` class is not under `src/`). -/
def Hmat (N : ℕ) (g : ℚ) : Matrix (Fin (2 ^ N)) (Fin (2 ^ N)) ℚ :=
  -(∑ i : Fin N, (g • sxMat N i + szszMat N i))

/-- Modelled from the spec: the parameter-derivative matrix
`pHpg = dH/dg = - sum_i sigma_i^x`, built by `TFIM.setpHpg`
(the `TFIM` class is not under `src/`). -/
def pHpgTFIM (N : ℕ) : Matrix (Fin (2 ^ N)) (Fin (2 ^ N)) ℚ :=
  -(∑ i : Fin N, sxMat N i)

/-- The mutable state of the `TFIM` model object shared by the four
evaluators: current field value `g` (with its autograd flag), the dense
Hamiltonian, and the parameter-derivative matrix. -/
structure TFIM (N : ℕ) where
  g : ℚ
  gRequiresGrad : Bool
  Hmatrix : Matrix (Fin (2 ^ N)) (Fin (2 ^ N)) ℚ
  pHpgmatrix : Matrix (Fin (2 ^ N)) (Fin (2 ^ N)) ℚ

/-- Modelled from the spec: the `TFIM(N)` constructor (the `TFIM` class is
not under `src/`); the driver overwrites `g` and rebuilds both matrices
before any evaluator reads them, so the initial field values are immaterial. -/
def TFIM.init (N : ℕ) : TFIM N :=
  { g := 0, gRequiresGrad := false, Hmatrix := 0, pHpgmatrix := 0 }

/-- Embedding of `model.setHmatrix()`: rebuild the dense Hamiltonian from the current `g`. -/
def setHmatrix {N : ℕ} (m : TFIM N) : TFIM N :=
  { m with Hmatrix := Hmat N m.g }

/-- Embedding of `model.setpHpg()`: rebuild the parameter-derivative matrix. -/
def setpHpg {N : ℕ} (m : TFIM N) : TFIM N :=
  { m with pHpgmatrix := pHpgTFIM N }

/-- The denominators `(Es[0] - Es[1:]) ** 2` of the perturbation formula
(`TFIM_chiF.py`, line 20). -/
def perturbationDenominator {N : ℕ} (Es : Fin (2 ^ N) → ℚ) (n : Fin (2 ^ N)) : ℚ :=
  (Es 0 - Es n) ^ 2

/-- Embedding of `chiF_perturbation` (`TFIM_chiF.py`, lines 9-22). The call to
`torch.symeig` is an external library call; its output `(Es, psis)` is taken
as an argument. The function then takes `psi0 = psis[:, 0]`, rebuilds
`pHpgmatrix` via `model.setpHpg()`, and sums
`(psi0 @ pHpg @ psis)[1:] ** 2 / (Es[0] - Es[1:]) ** 2`.
Returns the mutated model together with the scalar `chiF`. -/
def chiF_perturbation {N : ℕ} (m : TFIM N) (Es : Fin (2 ^ N) → ℚ)
    (psis : Matrix (Fin (2 ^ N)) (Fin (2 ^ N)) ℚ) : TFIM N × ℚ :=
  let psi0 : Fin (2 ^ N) → ℚ := fun i => psis i 0
  let m2 := setpHpg m
  let numerator : Fin (2 ^ N) → ℚ := fun n => (vecMul (vecMul psi0 m2.pHpgmatrix) psis n) ^ 2
  let chiF := ∑ n ∈ Finset.univ.filter (fun n : Fin (2 ^ N) => 0 < n),
    numerator n / perturbationDenominator Es n
  (m2, chiF)

/-- Modelled from the spec: the dependence on `g` of the dominant eigenpair
returned by the `DominantSymeig` / `DominantSparseSymeig` primitives
(`DominantSparseEigenAD/Lanczos.py`, not under `src/`), recorded as a
second-order jet at the current value of `g`: the eigenvalue `E0`, the
eigenvector `psi0`, and the first and second derivatives of the eigenvector
path with respect to `g`, which is what the primitives' custom
(Hellmann-Feynman / perturbative) gradient rules let `torch.autograd`
compute. -/
structure EigJet (d : ℕ) where
  E0 : ℚ
  psi0 : Fin d → ℚ
  dpsi0 : Fin d → ℚ
  d2psi0 : Fin d → ℚ

/-- Modelled from the spec ("identical psi0 and E0 up to sign/phase of
psi0"): the eigenpair path returned by one primitive, rescaled by a global
phase `s` (for real vectors, a sign). -/
def EigJet.flip {d : ℕ} (jet : EigJet d) (s : ℚ) : EigJet d :=
  { E0 := jet.E0, psi0 := s • jet.psi0, dpsi0 := s • jet.dpsi0, d2psi0 := s • jet.d2psi0 }

/-- Embedding of `chiF_matrixAD` (`TFIM_chiF.py`, lines 24-36). `DominantSymeig.apply`
(not under `src/`) returns `(E0, psi0)`; its `g`-dependence is supplied as
the jet `jet`. Modelled from the spec: `torch.autograd.grad` computes the
exact derivative with respect to `g`, so with `u = psi0.detach()` held
constant and `F(g) = u . psi0(g)` (whose jet is
`(u.psi0, u.dpsi0, u.d2psi0)`), the first reverse pass through
`logF = log F` yields `dlogF = F'/F` and the second pass yields
`d2logF = F''/F - (F'/F)^2`; the function returns `-d2logF`, with the model
passed through unmodified. -/
def chiF_matrixAD {N : ℕ} (m : TFIM N) (k : ℕ) (jet : EigJet (2 ^ N)) : TFIM N × ℚ :=
  let psi0 := jet.psi0
  let Fv := dotProduct psi0 jet.psi0
  let dF := dotProduct psi0 jet.dpsi0
  let d2F := dotProduct psi0 jet.d2psi0
  let dlogF := dF / Fv
  let d2logF := d2F / Fv - dlogF ^ 2
  (m, -d2logF)

/-- The externally visible library calls made by `chiF_sparseAD`, in
program order: the process-wide setup call `setDominantSparseSymeig`, the
application of the `DominantSparseSymeig` primitive, and the two
`torch.autograd.grad` passes. -/
inductive SparseEvent where
  | setDominantSparseSymeig
  | applyDominantSparseSymeig
  | autogradGrad
deriving DecidableEq

/-- The result of `chiF_sparseAD`: the (unmodified) model, the trace of
library calls in program order, and the returned triple `(E0, psi0, chiF)`. -/
structure SparseResult (N : ℕ) where
  model : TFIM N
  trace : List SparseEvent
  E0 : ℚ
  psi0 : Fin (2 ^ N) → ℚ
  chiF : ℚ

/-- Embedding of `chiF_sparseAD` (`TFIM_chiF.py`, lines 38-51). It first runs the
process-wide wiring call `lanczos.setDominantSparseSymeig(model.H,
model.Hadjoint_to_gadjoint)`, then applies `DominantSparseSymeig` to
`(model.g, k, model.dim)`, then performs the same detached-log-norm
double-differentiation as `chiF_matrixAD` (modelled from the spec exactly as
there), and returns the triple `(E0, psi0, chiF)`. -/
def chiF_sparseAD {N : ℕ} (m : TFIM N) (k : ℕ) (jet : EigJet (2 ^ N)) : SparseResult N :=
  let trace := [SparseEvent.setDominantSparseSymeig,
                SparseEvent.applyDominantSparseSymeig,
                SparseEvent.autogradGrad, SparseEvent.autogradGrad]
  let E0 := jet.E0
  let psi0 := jet.psi0
  let Fv := dotProduct psi0 jet.psi0
  let dF := dotProduct psi0 jet.dpsi0
  let d2F := dotProduct psi0 jet.d2psi0
  let dlogF := dF / Fv
  let d2logF := d2F / Fv - dlogF ^ 2
  { model := m, trace := trace, E0 := E0, psi0 := psi0, chiF := -d2logF }

/-- Embedding of `chiF_geometric` (`TFIM_chiF.py`, lines 53-66). `model.pHpg` (the
matrix-free apply of `dH/dg`, from the `TFIM` class not under `src/`) is
modelled from the spec as multiplication by `pHpgTFIM N`. The conjugate
gradient primitive `CGSubspaceSparse.apply` (`DominantSparseEigenAD/CG.py`,
not under `src/`) is taken as the oracle argument `cg`; it receives
`(model.g, E0, b, psi0)` exactly as in the source. -/
def chiF_geometric {N : ℕ} (m : TFIM N) (E0 : ℚ) (psi0 : Fin (2 ^ N) → ℚ)
    (cg : ℚ → ℚ → (Fin (2 ^ N) → ℚ) → (Fin (2 ^ N) → ℚ) → (Fin (2 ^ N) → ℚ)) :
    TFIM N × ℚ :=
  let b1 := -((pHpgTFIM N).mulVec psi0)
  let b := b1 - dotProduct psi0 b1 • psi0
  let dpsi0 := cg m.g E0 b psi0
  (m, dotProduct dpsi0 dpsi0)

/-- The projected right-hand side built by `chiF_geometric` before the CG
call: `b = -pHpg(psi0); b = b - (psi0 . b) * psi0`. -/
def geomB (N : ℕ) (psi0 : Fin (2 ^ N) → ℚ) : Fin (2 ^ N) → ℚ :=
  let b1 := -((pHpgTFIM N).mulVec psi0)
  b1 - dotProduct psi0 b1 • psi0

/-- Modelled from the spec: the external numerical library calls used by the
driver, as deterministic pure functions of their arguments: `torch.symeig`
(full eigendecomposition of a dense matrix), the jet of the eigenpair
returned by `DominantSymeig.apply` on a dense matrix with truncation `k`,
the jet of the eigenpair returned by `DominantSparseSymeig.apply` on
`(g, k, dim)` after the global wiring call, and the conjugate-gradient
primitive `CGSubspaceSparse.apply`. -/
structure Oracles (N : ℕ) where
  symeig : Matrix (Fin (2 ^ N)) (Fin (2 ^ N)) ℚ →
    (Fin (2 ^ N) → ℚ) × Matrix (Fin (2 ^ N)) (Fin (2 ^ N)) ℚ
  denseJet : Matrix (Fin (2 ^ N)) (Fin (2 ^ N)) ℚ → ℕ → EigJet (2 ^ N)
  sparseJet : ℚ → ℕ → ℕ → EigJet (2 ^ N)
  cg : ℚ → ℚ → (Fin (2 ^ N) → ℚ) → (Fin (2 ^ N) → ℚ) → (Fin (2 ^ N) → ℚ)

/-- One console line of the driver: the grid value `g` followed by the four
chi_F estimates, in the order they are printed. -/
structure PrintLine where
  g : ℚ
  chiP : ℚ
  chiM : ℚ
  chiS : ℚ
  chiG : ℚ
deriving DecidableEq

/-- One iteration of the driver loop (`TFIM_chiF.py`, lines 78-95): set
`model.g` to the grid value and mark it as requiring gradient tracking,
rebuild the dense Hamiltonian, run the four evaluators in program order
(threading the shared model object through them), and emit the console
line. -/
def sweepStep {N : ℕ} (oc : Oracles N) (k : ℕ) (m : TFIM N) (g : ℚ) :
    TFIM N × PrintLine :=
  let m1 : TFIM N := { m with g := g, gRequiresGrad := true }
  let m2 := setHmatrix m1
  let sym := oc.symeig m2.Hmatrix
  let pert := chiF_perturbation m2 sym.1 sym.2
  let m3 := pert.1
  let mat := chiF_matrixAD m3 k (oc.denseJet m3.Hmatrix k)
  let m4 := mat.1
  let sp := chiF_sparseAD m4 k (oc.sparseJet m4.g k (2 ^ N))
  let m5 := sp.model
  let geo := chiF_geometric m5 sp.E0 sp.psi0 oc.cg
  (geo.1, { g := g, chiP := pert.2, chiM := mat.2, chiS := sp.chiF, chiG := geo.2 })

/-- The driver loop over the list of grid values, threading the shared
model object across iterations and collecting the console lines. -/
def sweep {N : ℕ} (oc : Oracles N) (k : ℕ) : TFIM N → List ℚ → List PrintLine
  | _, [] => []
  | m, g :: rest =>
    let step := sweepStep oc k m g
    step.2 :: sweep oc k step.1 rest

/-- Embedding of `np.linspace(0.45, 1.6, num=100)`: the `i`-th grid value. -/
def gsGrid (i : ℕ) : ℚ :=
  9 / 20 + i * ((8 / 5 - 9 / 20) / 99)

/-- The arrays recorded by the driver (one entry per grid point for each of
the four methods) together with the printed console lines. -/
structure DriverOut where
  chiFs_perturbation : List ℚ
  chiFs_matrixAD : List ℚ
  chiFs_sparseAD : List ℚ
  chiFs_geometric : List ℚ
  lines : List PrintLine

/-- The `__main__` driver (`TFIM_chiF.py`, lines 68-95): `N = 10`,
`k = 300`, `Npoints = 100`, grid `np.linspace(0.45, 1.6, 100)`; runs the
sweep from a freshly constructed model and records the four values and the
console line at every grid point. -/
def driver (oc : Oracles 10) : DriverOut :=
  let recs := sweep oc 300 (TFIM.init 10) ((List.range 100).map fun i => gsGrid i)
  { chiFs_perturbation := recs.map PrintLine.chiP
    chiFs_matrixAD := recs.map PrintLine.chiM
    chiFs_sparseAD := recs.map PrintLine.chiS
    chiFs_geometric := recs.map PrintLine.chiG
    lines := recs }

/-- A trivial oracle bundle (all library calls return zeros), used only to
instantiate universally quantified statements at a concrete input. -/
def trivOracles (N : ℕ) : Oracles N :=
  { symeig := fun _ => (fun _ => 0, 0)
    denseJet := fun _ _ => { E0 := 0, psi0 := fun _ => 0, dpsi0 := fun _ => 0, d2psi0 := fun _ => 0 }
    sparseJet := fun _ _ _ => { E0 := 0, psi0 := fun _ => 0, dpsi0 := fun _ => 0, d2psi0 := fun _ => 0 }
    cg := fun _ _ _ _ _ => 0 }

/-! ### Helper lemmas -/

lemma flipBit_flipBit (N : ℕ) (i : Fin N) (a : Fin (2 ^ N)) :
    flipBit N i (flipBit N i a) = a := by
  apply Fin.ext
  show a.val ^^^ 2 ^ i.val ^^^ 2 ^ i.val = a.val
  rw [Nat.xor_assoc, Nat.xor_self, Nat.xor_zero]

lemma sxMat_transpose (N : ℕ) (i : Fin N) : (sxMat N i)ᵀ = sxMat N i := by
  ext a b
  simp only [transpose_apply, sxMat]
  by_cases h : a = flipBit N i b
  · have h2 : b = flipBit N i a := by rw [h, flipBit_flipBit]
    rw [if_pos h, if_pos h2]
  · have h2 : b ≠ flipBit N i a := fun hb => h (by rw [hb, flipBit_flipBit])
    rw [if_neg h, if_neg h2]

lemma pHpgTFIM_isSymm (N : ℕ) : (pHpgTFIM N).IsSymm := by
  unfold Matrix.IsSymm pHpgTFIM
  rw [transpose_neg, transpose_sum]
  simp [sxMat_transpose]

lemma dotProduct_self_nonneg {d : ℕ} (v : Fin d → ℚ) : 0 ≤ dotProduct v v :=
  Finset.sum_nonneg fun i _ => mul_self_nonneg (v i)

/-! ### The claims -/

/-- C1: `chiF_perturbation`, given a model with a dense Hamiltonian and a
parameter-derivative matrix, computes the full eigendecomposition of the
Hamiltonian (hypotheses `heig`, `hground`: `(Es, psis)` is an
eigendecomposition of `Hmatrix` with the eigenvalues in ascending order, as
`torch.symeig` guarantees), takes the ground state `psi0 = psis[:, 0]` and
all excited states, and returns the scalar sum over all `n ≠ 0` of
`|<psi_n| dH/dg |psi0>|^2 / (E0 - E_n)^2`. -/
theorem chiF_perturbation_spec {N : ℕ} (m : TFIM N) (Es : Fin (2 ^ N) → ℚ)
    (psis : Matrix (Fin (2 ^ N)) (Fin (2 ^ N)) ℚ)
    (heig : ∀ n, m.Hmatrix.mulVec (fun i => psis i n) = Es n • fun i => psis i n)
    (hground : ∀ n, Es 0 ≤ Es n) :
    m.Hmatrix.mulVec (fun i => psis i 0) = Es 0 • (fun i => psis i 0) ∧
    (∀ n, Es 0 ≤ Es n) ∧
    (chiF_perturbation m Es psis).2 =
      ∑ n ∈ Finset.univ.filter (fun n : Fin (2 ^ N) => n ≠ 0),
        dotProduct (fun i => psis i n) ((pHpgTFIM N).mulVec fun i => psis i 0) ^ 2
          / (Es 0 - Es n) ^ 2 := by
  refine ⟨heig 0, hground, ?_⟩
  have hset : (Finset.univ.filter fun n : Fin (2 ^ N) => 0 < n)
      = Finset.univ.filter fun n : Fin (2 ^ N) => n ≠ 0 :=
    Finset.filter_congr fun n _ => by simp [Fin.pos_iff_ne_zero']
  have hvm : vecMul (fun i => psis i 0) (pHpgTFIM N)
      = (pHpgTFIM N).mulVec fun i => psis i 0 := by
    conv_lhs => rw [← (pHpgTFIM_isSymm N)]
    exact vecMul_transpose _ _
  show (∑ n ∈ Finset.univ.filter fun n : Fin (2 ^ N) => 0 < n, _) = _
  rw [hset]
  refine Finset.sum_congr rfl fun n _ => ?_
  have hnum : vecMul (vecMul (fun i => psis i 0) (setpHpg m).pHpgmatrix) psis n
      = dotProduct (fun i => psis i n) ((pHpgTFIM N).mulVec fun i => psis i 0) := by
    have : (setpHpg m).pHpgmatrix = pHpgTFIM N := rfl
    rw [this, hvm]
    show dotProduct ((pHpgTFIM N).mulVec fun i => psis i 0) (fun i => psis i n) = _
    exact dotProduct_comm _ _
  show vecMul (vecMul (fun i => psis i 0) (setpHpg m).pHpgmatrix) psis n ^ 2
      / perturbationDenominator Es n = _
  rw [hnum, perturbationDenominator]

/-- Concrete model fixture used to instantiate universally quantified
statements: `N = 1`, `g = 0`, and the value of `Hmat 1 0` (minus the
identity) as the dense Hamiltonian. -/
def mW : TFIM 1 :=
  { g := 0, gRequiresGrad := false, Hmatrix := -1, pHpgmatrix := 0 }

/-- Eigendecomposition fixture for `mW.Hmatrix = -1`: both eigenvalues are
`-1` and the eigenvectors are the standard basis. -/
def EsW : Fin (2 ^ 1) → ℚ := fun _ => -1

/-- Eigenvector fixture (identity matrix). -/
def psisW : Matrix (Fin (2 ^ 1)) (Fin (2 ^ 1)) ℚ := 1

/-- Jet fixture: a normalized eigenvector path
`psi0 = (1,0)`, `dpsi0 = (0,1)`, `d2psi0 = (-1,0)`. -/
def jetW : EigJet (2 ^ 1) :=
  { E0 := -1, psi0 := ![1, 0], dpsi0 := ![0, 1], d2psi0 := ![-1, 0] }

/-- Witness for C1 at the concrete fixture. -/
theorem chiF_perturbation_spec_witness :
    (∀ n, mW.Hmatrix.mulVec (fun i => psisW i n) = EsW n • fun i => psisW i n) ∧
    (chiF_perturbation mW EsW psisW).2 =
      ∑ n ∈ Finset.univ.filter (fun n : Fin (2 ^ 1) => n ≠ 0),
        dotProduct (fun i => psisW i n) ((pHpgTFIM 1).mulVec fun i => psisW i 0) ^ 2
          / (EsW 0 - EsW n) ^ 2 :=
  ⟨by
    intro n
    funext i
    fin_cases n <;> fin_cases i <;>
      simp [mW, EsW, psisW, Matrix.mulVec, Matrix.dotProduct, Fin.sum_univ_two,
        Matrix.one_apply],
  (chiF_perturbation_spec mW EsW psisW
    (by
      intro n
      funext i
      fin_cases n <;> fin_cases i <;>
        simp [mW, EsW, psisW, Matrix.mulVec, Matrix.dotProduct, Fin.sum_univ_two,
          Matrix.one_apply])
    (fun n => le_refl _)).2.2⟩

/-- C6: `chiF_perturbation` performs an unguarded division by
`(E0 - E_n)^2` over all excited states: whenever the Hamiltonian is
symmetric, every denominator is nonzero if and only if no excited energy
`E_n` equals the ground energy `E0`; with a degenerate ground energy some
denominator is zero. -/
theorem perturbation_division_guard {N : ℕ} (m : TFIM N) (Es : Fin (2 ^ N) → ℚ)
    (hsym : m.Hmatrix.IsSymm) :
    ((∀ n : Fin (2 ^ N), n ≠ 0 → perturbationDenominator Es n ≠ 0) ↔
      ∀ n : Fin (2 ^ N), n ≠ 0 → Es n ≠ Es 0) ∧
    ((∃ n : Fin (2 ^ N), n ≠ 0 ∧ Es n = Es 0) →
      ∃ n : Fin (2 ^ N), n ≠ 0 ∧ perturbationDenominator Es n = 0) := by
  have key : ∀ n, perturbationDenominator Es n ≠ 0 ↔ Es n ≠ Es 0 := fun n => by
    rw [perturbationDenominator, pow_ne_zero_iff (by norm_num : 2 ≠ 0), sub_ne_zero, ne_comm]
  refine ⟨⟨fun h n hn => (key n).mp (h n hn), fun h n hn => (key n).mpr (h n hn)⟩, ?_⟩
  rintro ⟨n, hn, he⟩
  exact ⟨n, hn, by simp [perturbationDenominator, he]⟩

/-- Witness for C6 at the concrete fixture (degenerate spectrum, so the
degeneracy branch is exercised as well). -/
theorem perturbation_division_guard_witness :
    mW.Hmatrix.IsSymm ∧
    (((∀ n : Fin (2 ^ 1), n ≠ 0 → perturbationDenominator EsW n ≠ 0) ↔
      ∀ n : Fin (2 ^ 1), n ≠ 0 → EsW n ≠ EsW 0) ∧
    ((∃ n : Fin (2 ^ 1), n ≠ 0 ∧ EsW n = EsW 0) →
      ∃ n : Fin (2 ^ 1), n ≠ 0 ∧ perturbationDenominator EsW n = 0)) :=
  ⟨by simp [mW, Matrix.IsSymm],
   perturbation_division_guard mW EsW (by simp [mW, Matrix.IsSymm])⟩

/-- C3: for every field value `g` (the model is arbitrary) and every
truncation size `k`, `chiF_sparseAD` and `chiF_matrixAD` satisfy the same
mathematical contract: modelling the sparse primitive's eigenpair as the
dense one rescaled by a sign/phase `s` (they represent the same operator
differently), the sparse evaluator produces the identical `E0`, the
identical `psi0` up to the sign `s`, and the same `chi_F` value; it
additionally returns the full triple `(E0, psi0, chiF)` for downstream
reuse. -/
theorem sparse_matches_matrixAD {N : ℕ} (m : TFIM N) (k : ℕ) (jet : EigJet (2 ^ N))
    (s : ℚ) (hs : s = 1 ∨ s = -1) :
    (chiF_sparseAD m k (jet.flip s)).E0 = jet.E0 ∧
    (chiF_sparseAD m k (jet.flip s)).psi0 = s • jet.psi0 ∧
    (chiF_sparseAD m k (jet.flip s)).chiF = (chiF_matrixAD m k jet).2 := by
  refine ⟨rfl, rfl, ?_⟩
  have hss : s * s = 1 := by rcases hs with h | h <;> rw [h] <;> norm_num
  have hd : ∀ a b : Fin (2 ^ N) → ℚ, dotProduct (s • a) (s • b) = dotProduct a b := by
    intro a b
    rw [smul_dotProduct, dotProduct_smul, smul_eq_mul, smul_eq_mul, ← mul_assoc, hss, one_mul]
  show -(dotProduct (s • jet.psi0) (s • jet.d2psi0) / dotProduct (s • jet.psi0) (s • jet.psi0)
        - (dotProduct (s • jet.psi0) (s • jet.dpsi0)
            / dotProduct (s • jet.psi0) (s • jet.psi0)) ^ 2)
      = -(dotProduct jet.psi0 jet.d2psi0 / dotProduct jet.psi0 jet.psi0
        - (dotProduct jet.psi0 jet.dpsi0 / dotProduct jet.psi0 jet.psi0) ^ 2)
  rw [hd, hd, hd]

/-- Witness for C3 at the concrete fixture with sign `s = -1`. -/
theorem sparse_matches_matrixAD_witness :
    ((-1 : ℚ) = 1 ∨ (-1 : ℚ) = -1) ∧
    ((chiF_sparseAD mW 300 (jetW.flip (-1))).E0 = jetW.E0 ∧
    (chiF_sparseAD mW 300 (jetW.flip (-1))).psi0 = (-1 : ℚ) • jetW.psi0 ∧
    (chiF_sparseAD mW 300 (jetW.flip (-1))).chiF = (chiF_matrixAD mW 300 jetW).2) :=
  ⟨Or.inr rfl, sparse_matches_matrixAD mW 300 jetW (-1) (Or.inr rfl)⟩

/-- C5: for every field value `g` (the model, spectrum and jets are
arbitrary), the chi_F value returned by each of the four evaluators is
non-negative: the perturbation sum is a sum of squares over squares, the
two AD evaluators return `|dpsi0/dg|^2` once the eigenvector path is
normalized (hypotheses: unit norm and its first two derivative
consequences), and the geometric evaluator returns a squared norm. -/
theorem chiF_values_nonneg {N : ℕ} (m : TFIM N) (Es : Fin (2 ^ N) → ℚ)
    (psis : Matrix (Fin (2 ^ N)) (Fin (2 ^ N)) ℚ) (k : ℕ)
    (jetM jetS : EigJet (2 ^ N)) (E0 : ℚ) (psi0 : Fin (2 ^ N) → ℚ)
    (cg : ℚ → ℚ → (Fin (2 ^ N) → ℚ) → (Fin (2 ^ N) → ℚ) → (Fin (2 ^ N) → ℚ))
    (hM1 : dotProduct jetM.psi0 jetM.psi0 = 1)
    (hM2 : dotProduct jetM.psi0 jetM.dpsi0 = 0)
    (hM3 : dotProduct jetM.psi0 jetM.d2psi0 + dotProduct jetM.dpsi0 jetM.dpsi0 = 0)
    (hS1 : dotProduct jetS.psi0 jetS.psi0 = 1)
    (hS2 : dotProduct jetS.psi0 jetS.dpsi0 = 0)
    (hS3 : dotProduct jetS.psi0 jetS.d2psi0 + dotProduct jetS.dpsi0 jetS.dpsi0 = 0) :
    0 ≤ (chiF_perturbation m Es psis).2 ∧
    0 ≤ (chiF_matrixAD m k jetM).2 ∧
    0 ≤ (chiF_sparseAD m k jetS).chiF ∧
    0 ≤ (chiF_geometric m E0 psi0 cg).2 := by
  have had : ∀ jet : EigJet (2 ^ N), dotProduct jet.psi0 jet.psi0 = 1 →
      dotProduct jet.psi0 jet.dpsi0 = 0 →
      dotProduct jet.psi0 jet.d2psi0 + dotProduct jet.dpsi0 jet.dpsi0 = 0 →
      0 ≤ -(dotProduct jet.psi0 jet.d2psi0 / dotProduct jet.psi0 jet.psi0
        - (dotProduct jet.psi0 jet.dpsi0 / dotProduct jet.psi0 jet.psi0) ^ 2) := by
    intro jet h1 h2 h3
    have h4 : dotProduct jet.psi0 jet.d2psi0 = -dotProduct jet.dpsi0 jet.dpsi0 := by
      linarith
    rw [h1, h2, h4]
    have h5 := dotProduct_self_nonneg jet.dpsi0
    rw [div_one, zero_div]
    nlinarith [h5]
  refine ⟨?_, had jetM hM1 hM2 hM3, had jetS hS1 hS2 hS3, dotProduct_self_nonneg _⟩
  show 0 ≤ ∑ n ∈ Finset.univ.filter (fun n : Fin (2 ^ N) => 0 < n),
    vecMul (vecMul (fun i => psis i 0) (setpHpg m).pHpgmatrix) psis n ^ 2
      / perturbationDenominator Es n
  refine Finset.sum_nonneg fun n _ => div_nonneg (sq_nonneg _) ?_
  rw [perturbationDenominator]
  exact sq_nonneg _

/-- Witness for C5 at the concrete fixture (the jet describes a normalized
eigenvector path). -/
theorem chiF_values_nonneg_witness :
    (dotProduct jetW.psi0 jetW.psi0 = 1 ∧
     dotProduct jetW.psi0 jetW.dpsi0 = 0 ∧
     dotProduct jetW.psi0 jetW.d2psi0 + dotProduct jetW.dpsi0 jetW.dpsi0 = 0) ∧
    (0 ≤ (chiF_perturbation mW EsW psisW).2 ∧
    0 ≤ (chiF_matrixAD mW 300 jetW).2 ∧
    0 ≤ (chiF_sparseAD mW 300 jetW).chiF ∧
    0 ≤ (chiF_geometric mW (-1) ![1, 0] (fun _ _ _ _ => ![0, 1])).2) :=
  ⟨⟨by simp [jetW, Matrix.dotProduct, Fin.sum_univ_two],
    by simp [jetW, Matrix.dotProduct, Fin.sum_univ_two],
    by simp [jetW, Matrix.dotProduct, Fin.sum_univ_two]⟩,
   chiF_values_nonneg mW EsW psisW 300 jetW jetW (-1) ![1, 0] (fun _ _ _ _ => ![0, 1])
     (by simp [jetW, Matrix.dotProduct, Fin.sum_univ_two])
     (by simp [jetW, Matrix.dotProduct, Fin.sum_univ_two])
     (by simp [jetW, Matrix.dotProduct, Fin.sum_univ_two])
     (by simp [jetW, Matrix.dotProduct, Fin.sum_univ_two])
     (by simp [jetW, Matrix.dotProduct, Fin.sum_univ_two])
     (by simp [jetW, Matrix.dotProduct, Fin.sum_univ_two])⟩

/-- C10: `chiF_perturbation` mutates the shared model object as a side
effect, rebuilding the parameter-derivative matrix via `model.setpHpg()`
while leaving `g` and `Hmatrix` unchanged; none of the other three
evaluators modifies any field of the model. -/
theorem evaluators_frame {N : ℕ} (m : TFIM N) (Es : Fin (2 ^ N) → ℚ)
    (psis : Matrix (Fin (2 ^ N)) (Fin (2 ^ N)) ℚ) (k : ℕ)
    (jet jetS : EigJet (2 ^ N)) (E0 : ℚ) (psi0 : Fin (2 ^ N) → ℚ)
    (cg : ℚ → ℚ → (Fin (2 ^ N) → ℚ) → (Fin (2 ^ N) → ℚ) → (Fin (2 ^ N) → ℚ)) :
    (chiF_perturbation m Es psis).1.g = m.g ∧
    (chiF_perturbation m Es psis).1.gRequiresGrad = m.gRequiresGrad ∧
    (chiF_perturbation m Es psis).1.Hmatrix = m.Hmatrix ∧
    (chiF_perturbation m Es psis).1.pHpgmatrix = pHpgTFIM N ∧
    (chiF_matrixAD m k jet).1 = m ∧
    (chiF_sparseAD m k jetS).model = m ∧
    (chiF_geometric m E0 psi0 cg).1 = m :=
  ⟨rfl, rfl, rfl, rfl, rfl, rfl, rfl⟩

/-- C9: in every invocation of `chiF_sparseAD`, every occurrence of the
application of the sparse dominant-eigenpair primitive in the trace of
library calls is strictly preceded by an occurrence of the process-wide
setup call `setDominantSparseSymeig`: the primitive is never applied
without the setup call having occurred first in the same invocation. -/
theorem sparse_setup_precedes_apply {N : ℕ} (m : TFIM N) (k : ℕ)
    (jet : EigJet (2 ^ N)) :
    ∀ j : Fin (chiF_sparseAD m k jet).trace.length,
      (chiF_sparseAD m k jet).trace.get j = SparseEvent.applyDominantSparseSymeig →
      ∃ i : Fin (chiF_sparseAD m k jet).trace.length,
        (i : ℕ) < (j : ℕ) ∧
        (chiF_sparseAD m k jet).trace.get i = SparseEvent.setDominantSparseSymeig := by
  intro j
  fin_cases j <;> intro hj
  · exact SparseEvent.noConfusion hj
  · exact ⟨⟨0, Nat.succ_pos 3⟩, Nat.zero_lt_one, rfl⟩
  · exact SparseEvent.noConfusion hj
  · exact SparseEvent.noConfusion hj

/-- Witness for C9 at the concrete fixture: the primitive application is
the second trace entry and the setup call precedes it. -/
theorem sparse_setup_precedes_apply_witness :
    (chiF_sparseAD mW 300 jetW).trace.get ⟨1, Nat.one_lt_succ_succ 2⟩
      = SparseEvent.applyDominantSparseSymeig ∧
    ∃ i : Fin (chiF_sparseAD mW 300 jetW).trace.length,
      (i : ℕ) < 1 ∧
      (chiF_sparseAD mW 300 jetW).trace.get i = SparseEvent.setDominantSparseSymeig :=
  ⟨rfl, sparse_setup_precedes_apply mW 300 jetW ⟨1, Nat.one_lt_succ_succ 2⟩ rfl⟩

/-- The console line produced at a single grid point, as a function of the
grid value alone (starting from the freshly constructed model). -/
def pointLine {N : ℕ} (oc : Oracles N) (k : ℕ) (g : ℚ) : PrintLine :=
  (sweepStep oc k (TFIM.init N) g).2

/-- The model state an iteration actually computes with: the grid value
written into `g`, the gradient-tracking mark set, and the dense Hamiltonian
rebuilt from that value. -/
def pointModel (N : ℕ) (g : ℚ) : TFIM N :=
  setHmatrix { TFIM.init N with g := g, gRequiresGrad := true }

lemma sweepStep_snd_const {N : ℕ} (oc : Oracles N) (k : ℕ) (m m' : TFIM N) (g : ℚ) :
    (sweepStep oc k m g).2 = (sweepStep oc k m' g).2 := rfl

lemma sweep_eq_map {N : ℕ} (oc : Oracles N) (k : ℕ) (m : TFIM N) (gs : List ℚ) :
    sweep oc k m gs = gs.map (pointLine oc k) := by
  induction gs generalizing m with
  | nil => rfl
  | cons g rest ih =>
    show (sweepStep oc k m g).2 :: sweep oc k (sweepStep oc k m g).1 rest = _
    rw [List.map_cons, ih, sweepStep_snd_const oc k m (TFIM.init N) g]
    rfl

/-- C7: no cross-point state is retained by the sweep. For every grid index,
the four chi_F values computed there depend only on the grid value, the
model construction parameters (`N` and the library oracles) and the
truncation `k`: the list of per-point records is the pointwise map of a pure
per-point function over the grid values, for every initial model state, and
in particular two sweeps started from different model states produce
identical records. -/
theorem sweep_points_independent {N : ℕ} (oc : Oracles N) (k : ℕ)
    (m m' : TFIM N) (gs : List ℚ) :
    sweep oc k m gs = gs.map (pointLine oc k) ∧
    sweep oc k m gs = sweep oc k m' gs := by
  rw [sweep_eq_map, sweep_eq_map]
  exact ⟨rfl, rfl⟩

/-- C8: the driver iterates over a linear grid of `Npoints = 100` values of
`g` and, at every grid point in order, sets `g` as a scalar marked as
requiring gradient tracking, rebuilds the dense matrix, runs all four
evaluators (threading the shared model through them), records the four
results, and prints one console line listing `g` and the four chi_F
estimates for that point. -/
theorem driver_spec (oc : Oracles 10) :
    (driver oc).lines.length = 100 ∧
    (∀ i : ℕ, gsGrid i = 9 / 20 + (i : ℚ) * ((8 / 5 - 9 / 20) / 99)) ∧
    (driver oc).lines = (List.range 100).map (fun i => pointLine oc 300 (gsGrid i)) ∧
    (driver oc).chiFs_perturbation = (driver oc).lines.map PrintLine.chiP ∧
    (driver oc).chiFs_matrixAD = (driver oc).lines.map PrintLine.chiM ∧
    (driver oc).chiFs_sparseAD = (driver oc).lines.map PrintLine.chiS ∧
    (driver oc).chiFs_geometric = (driver oc).lines.map PrintLine.chiG ∧
    (∀ g : ℚ, (pointModel 10 g).g = g ∧ (pointModel 10 g).gRequiresGrad = true ∧
      (pointModel 10 g).Hmatrix = Hmat 10 g) ∧
    (∀ g : ℚ,
      pointLine oc 300 g =
        { g := g
          chiP := (chiF_perturbation (pointModel 10 g)
            (oc.symeig (pointModel 10 g).Hmatrix).1
            (oc.symeig (pointModel 10 g).Hmatrix).2).2
          chiM := (chiF_matrixAD (setpHpg (pointModel 10 g)) 300
            (oc.denseJet (pointModel 10 g).Hmatrix 300)).2
          chiS := (chiF_sparseAD (setpHpg (pointModel 10 g)) 300
            (oc.sparseJet g 300 (2 ^ 10))).chiF
          chiG := (chiF_geometric (setpHpg (pointModel 10 g))
            (chiF_sparseAD (setpHpg (pointModel 10 g)) 300
              (oc.sparseJet g 300 (2 ^ 10))).E0
            (chiF_sparseAD (setpHpg (pointModel 10 g)) 300
              (oc.sparseJet g 300 (2 ^ 10))).psi0
            oc.cg).2 }) := by
  have hlines : (driver oc).lines
      = (List.range 100).map (fun i => pointLine oc 300 (gsGrid i)) := by
    show sweep oc 300 (TFIM.init 10) ((List.range 100).map fun i => gsGrid i)
      = (List.range 100).map fun i => pointLine oc 300 (gsGrid i)
    rw [sweep_eq_map, List.map_map]
    rfl
  refine ⟨?_, fun i => rfl, hlines, rfl, rfl, rfl, rfl,
    fun g => ⟨rfl, rfl, rfl⟩, fun g => rfl⟩
  rw [show (driver oc).lines
      = sweep oc 300 (TFIM.init 10) ((List.range 100).map fun i => gsGrid i) from rfl,
    sweep_eq_map, List.length_map, List.length_map, List.length_range]

/-- C4: `chiF_geometric`, given model, ground energy `E0` and ground
eigenvector `psi0`, forms `b = -(dH/dg) psi0`, subtracts its `psi0`
component so that the projected right-hand side is orthogonal to `psi0`
(for unit-norm `psi0`), solves the shifted system `(H - E0 I) x = b`
restricted to the orthogonal subspace via the conjugate-gradient primitive
(hypotheses `hcg1`, `hcg2`: the CG oracle meets its contract) to obtain the
first-order state derivative `dpsi0/dg` (the hypotheses `heig`, `hderiv`,
`horth` say `dpsiStar` is that derivative: they are the eigenvalue equation
and its `g`-derivative along the normalized eigenpath, with `hsimple`
expressing that the ground energy is simple), and returns chi_F equal to
the squared norm of that solution. -/
theorem chiF_geometric_correct {N : ℕ} (m : TFIM N) (E0 dE0 : ℚ)
    (psi0 dpsiStar : Fin (2 ^ N) → ℚ)
    (cg : ℚ → ℚ → (Fin (2 ^ N) → ℚ) → (Fin (2 ^ N) → ℚ) → (Fin (2 ^ N) → ℚ))
    (hsymm : m.Hmatrix.IsSymm)
    (hnorm : dotProduct psi0 psi0 = 1)
    (heig : m.Hmatrix.mulVec psi0 = E0 • psi0)
    (hderiv : (pHpgTFIM N).mulVec psi0 + m.Hmatrix.mulVec dpsiStar
      = dE0 • psi0 + E0 • dpsiStar)
    (horth : dotProduct psi0 dpsiStar = 0)
    (hsimple : ∀ v : Fin (2 ^ N) → ℚ, dotProduct psi0 v = 0 →
      m.Hmatrix.mulVec v = E0 • v → v = 0)
    (hcg1 : dotProduct psi0 (cg m.g E0 (geomB N psi0) psi0) = 0)
    (hcg2 : m.Hmatrix.mulVec (cg m.g E0 (geomB N psi0) psi0)
      - E0 • cg m.g E0 (geomB N psi0) psi0 = geomB N psi0) :
    dotProduct psi0 (geomB N psi0) = 0 ∧
    cg m.g E0 (geomB N psi0) psi0 = dpsiStar ∧
    (chiF_geometric m E0 psi0 cg).2 = dotProduct dpsiStar dpsiStar := by
  have hb0 : dotProduct psi0 (geomB N psi0) = 0 := by
    show dotProduct psi0 (-((pHpgTFIM N).mulVec psi0)
      - dotProduct psi0 (-((pHpgTFIM N).mulVec psi0)) • psi0) = 0
    rw [dotProduct_sub, dotProduct_smul, smul_eq_mul, hnorm, mul_one, sub_self]
  -- `psi0` is a left eigenvector as well, by symmetry of `Hmatrix`
  have hvm : vecMul psi0 m.Hmatrix = m.Hmatrix.mulVec psi0 := by
    conv_lhs => rw [← hsymm]
    exact vecMul_transpose _ _
  -- Hellmann-Feynman: `dE0 = <psi0, (dH/dg) psi0>`
  have hHF : dotProduct psi0 ((pHpgTFIM N).mulVec psi0) = dE0 := by
    have h1 := congrArg (dotProduct psi0) hderiv
    rw [dotProduct_add, dotProduct_add, dotProduct_smul, dotProduct_smul,
      smul_eq_mul, smul_eq_mul, hnorm, horth, mul_one, mul_zero, add_zero] at h1
    have h2 : dotProduct psi0 (m.Hmatrix.mulVec dpsiStar) = 0 := by
      rw [dotProduct_mulVec, hvm, heig, smul_dotProduct, smul_eq_mul, horth, mul_zero]
    rw [h2, add_zero] at h1
    exact h1
  -- the projected right-hand side equals `(H - E0) dpsiStar`
  have hbstar : geomB N psi0
      = m.Hmatrix.mulVec dpsiStar - E0 • dpsiStar := by
    show -((pHpgTFIM N).mulVec psi0)
      - dotProduct psi0 (-((pHpgTFIM N).mulVec psi0)) • psi0 = _
    rw [dotProduct_neg, hHF]
    have h3 : m.Hmatrix.mulVec dpsiStar
        = dE0 • psi0 + E0 • dpsiStar - (pHpgTFIM N).mulVec psi0 := by
      rw [← hderiv]; abel
    rw [h3, neg_smul]
    abel
  -- the CG solution coincides with the eigenvector derivative
  have hx : cg m.g E0 (geomB N psi0) psi0 = dpsiStar := by
    have h8 : m.Hmatrix.mulVec (cg m.g E0 (geomB N psi0) psi0)
          - E0 • cg m.g E0 (geomB N psi0) psi0
        = m.Hmatrix.mulVec dpsiStar - E0 • dpsiStar := hcg2.trans hbstar
    have h9 := sub_eq_sub_iff_sub_eq_sub.mp h8
    have h10 : dotProduct psi0 (cg m.g E0 (geomB N psi0) psi0 - dpsiStar) = 0 := by
      rw [dotProduct_sub, hcg1, horth, sub_zero]
    have h11 : m.Hmatrix.mulVec (cg m.g E0 (geomB N psi0) psi0 - dpsiStar)
        = E0 • (cg m.g E0 (geomB N psi0) psi0 - dpsiStar) := by
      rw [mulVec_sub, smul_sub]
      exact h9
    have h12 := hsimple _ h10 h11
    exact sub_eq_zero.mp h12
  refine ⟨hb0, hx, ?_⟩
  show dotProduct (cg m.g E0 (geomB N psi0) psi0) (cg m.g E0 (geomB N psi0) psi0)
    = dotProduct dpsiStar dpsiStar
  rw [hx]

/-- Model fixture for the geometric evaluator: a diagonal Hamiltonian with
simple ground energy `1`. -/
def mG : TFIM 1 :=
  { g := 0, gRequiresGrad := false, Hmatrix := !![1, 0; 0, 2], pHpgmatrix := 0 }

/-- Ground-state fixture for `mG`. -/
def psi0G : Fin (2 ^ 1) → ℚ := ![1, 0]

/-- The corresponding first-order eigenvector derivative fixture. -/
def dpsiG : Fin (2 ^ 1) → ℚ := ![0, 1]

/-- CG oracle fixture returning the exact solution of the projected shifted
system for `mG`. -/
def cgG : ℚ → ℚ → (Fin (2 ^ 1) → ℚ) → (Fin (2 ^ 1) → ℚ) → (Fin (2 ^ 1) → ℚ) :=
  fun _ _ _ _ => ![0, 1]

lemma sum_fin_two {M : Type} [AddCommMonoid M] (f : Fin (2 ^ 1) → M) :
    ∑ i, f i = f 0 + f 1 := Fin.sum_univ_two f

lemma pHpgTFIM_one : pHpgTFIM 1 = !![0, -1; -1, 0] := by
  ext i j
  simp only [pHpgTFIM, Matrix.neg_apply, Matrix.sum_apply, Fin.sum_univ_one]
  fin_cases i <;> fin_cases j <;>
    simp [sxMat, flipBit, Fin.ext_iff]

lemma geomB_one : geomB 1 ![1, 0] = ![0, 1] := by
  show -((pHpgTFIM 1).mulVec ![1, 0])
    - dotProduct ![1, 0] (-((pHpgTFIM 1).mulVec ![1, 0])) • ![1, 0] = ![0, 1]
  funext i
  fin_cases i <;>
    simp [pHpgTFIM_one, Matrix.mulVec, Matrix.dotProduct, Fin.sum_univ_two, sum_fin_two]

/-- Witness for C4 at the concrete fixture. -/
theorem chiF_geometric_correct_witness :
    (dotProduct psi0G psi0G = 1 ∧ mG.Hmatrix.mulVec psi0G = (1 : ℚ) • psi0G) ∧
    (cgG mG.g 1 (geomB 1 psi0G) psi0G = dpsiG ∧
     (chiF_geometric mG 1 psi0G cgG).2 = dotProduct dpsiG dpsiG) :=
  ⟨⟨by simp [psi0G, Matrix.dotProduct, Fin.sum_univ_two],
    by
      funext i
      fin_cases i <;>
        simp [mG, psi0G, Matrix.mulVec, Matrix.dotProduct, Fin.sum_univ_two]⟩,
   (chiF_geometric_correct mG 1 0 psi0G dpsiG cgG
    (by
      show mG.Hmatrixᵀ = mG.Hmatrix
      ext i j
      fin_cases i <;> fin_cases j <;> simp [mG])
    (by simp [psi0G, Matrix.dotProduct, Fin.sum_univ_two])
    (by
      funext i
      fin_cases i <;>
        simp [mG, psi0G, Matrix.mulVec, Matrix.dotProduct, Fin.sum_univ_two])
    (by
      funext i
      fin_cases i <;>
        norm_num [mG, psi0G, dpsiG, pHpgTFIM_one, Matrix.mulVec, Matrix.dotProduct,
          Fin.sum_univ_two, sum_fin_two])
    (by simp [psi0G, dpsiG, Matrix.dotProduct, Fin.sum_univ_two])
    (by
      intro v h1 h2
      have hv0 : v 0 = 0 := by
        simpa [psi0G, Matrix.dotProduct, Fin.sum_univ_two] using h1
      have hv1 : (2 : ℚ) * v 1 = v 1 := by
        have h3 := congrFun h2 1
        simpa [mG, Matrix.mulVec, Matrix.dotProduct, Fin.sum_univ_two, hv0] using h3
      have hv1' : v 1 = 0 := by linarith
      funext i
      fin_cases i
      · exact hv0
      · exact hv1')
    (by simp [cgG, psi0G, Matrix.dotProduct, Fin.sum_univ_two])
    (by
      funext i
      fin_cases i <;>
        norm_num [mG, cgG, psi0G, geomB_one, Matrix.mulVec, Matrix.dotProduct,
          Fin.sum_univ_two, sum_fin_two])).2⟩

lemma deriv2_log_quadratic (A B C : ℝ) (hA : A ≠ 0) :
    deriv (deriv fun t : ℝ => Real.log (A + B * t + C * (t ^ 2 / 2))) 0
      = (C * A - B * B) / A ^ 2 := by
  have hPd : ∀ t : ℝ, HasDerivAt (fun s : ℝ => A + B * s + C * (s ^ 2 / 2))
      (B + C * t) t := by
    intro t
    have h1 : HasDerivAt (fun s : ℝ => B * s) B t := by
      simpa using (hasDerivAt_id t).const_mul B
    have h3 : HasDerivAt (fun s : ℝ => s ^ 2) (2 * t) t := by
      simpa using hasDerivAt_pow 2 t
    have h2 : HasDerivAt (fun s : ℝ => C * (s ^ 2 / 2)) (C * t) t := by
      have h4 := (h3.div_const 2).const_mul C
      have h5 : C * (2 * t / 2) = C * t := by ring
      rw [h5] at h4
      exact h4
    exact (h1.const_add A).add h2
  have hP0 : A + B * (0 : ℝ) + C * ((0 : ℝ) ^ 2 / 2) = A := by ring
  have hne : ∀ᶠ t in nhds 0, A + B * t + C * (t ^ 2 / 2) ≠ 0 := by
    have hcont : ContinuousAt (fun t : ℝ => A + B * t + C * (t ^ 2 / 2)) 0 :=
      (hPd 0).continuousAt
    have h0 : A + B * (0 : ℝ) + C * ((0 : ℝ) ^ 2 / 2) ≠ 0 := by rw [hP0]; exact hA
    exact hcont.eventually_ne h0
  have hdlog : ∀ᶠ t in nhds 0,
      deriv (fun s : ℝ => Real.log (A + B * s + C * (s ^ 2 / 2))) t
        = (B + C * t) / (A + B * t + C * (t ^ 2 / 2)) := by
    refine hne.mono fun t ht => ?_
    exact ((hPd t).log ht).deriv
  have heq : deriv (deriv fun t : ℝ => Real.log (A + B * t + C * (t ^ 2 / 2))) 0
      = deriv (fun t : ℝ => (B + C * t) / (A + B * t + C * (t ^ 2 / 2))) 0 :=
    Filter.EventuallyEq.deriv_eq hdlog
  rw [heq]
  have hnum : HasDerivAt (fun t : ℝ => B + C * t) C 0 := by
    simpa using ((hasDerivAt_id (0 : ℝ)).const_mul C).const_add B
  have hden : HasDerivAt (fun t : ℝ => A + B * t + C * (t ^ 2 / 2)) B 0 := by
    have := hPd 0
    rw [show B + C * (0 : ℝ) = B by ring] at this
    exact this
  have hdiv := hnum.div hden (by rw [hP0]; exact hA)
  rw [hdiv.deriv, hP0]
  have h6 : B + C * (0 : ℝ) = B := by ring
  rw [h6]

lemma negD2_cast (a b c : ℚ) (ha : 0 < a) :
    ((-(c / a - (b / a) ^ 2) : ℚ) : ℝ)
      = -(((c : ℝ) * (a : ℝ) - (b : ℝ) * (b : ℝ)) / (a : ℝ) ^ 2) := by
  have ha' : (a : ℝ) ≠ 0 := by exact_mod_cast ha.ne'
  push_cast
  field_simp
  ring

/-- C2: `chiF_matrixAD` obtains `(E0, psi0)` from the dominant-eigenpair
primitive (supplied as the jet of the eigenpair path), computes
`log(psi0^T psi0)` using a detached copy of `psi0` (the first factor of the
inner product below is frozen at the current parameter value, so the
log-norm itself is not differentiated through the eigenvector computation),
takes first and second derivatives with respect to `g` via two sequential
reverse-mode passes (modelled as exact differentiation of the second-order
Taylor representative of the path, `t` being the offset of `g` from its
current value), and returns chi_F equal to the negated second derivative. -/
theorem matrixAD_neg_second_deriv {N : ℕ} (m : TFIM N) (k : ℕ)
    (jet : EigJet (2 ^ N)) (hpos : 0 < dotProduct jet.psi0 jet.psi0) :
    ((chiF_matrixAD m k jet).2 : ℝ) =
      -(deriv (deriv fun t : ℝ =>
        Real.log (∑ i, (jet.psi0 i : ℝ) *
          ((jet.psi0 i : ℝ) + (jet.dpsi0 i : ℝ) * t
            + (jet.d2psi0 i : ℝ) * (t ^ 2 / 2)))) 0) := by
  have hfun : (fun t : ℝ =>
      Real.log (∑ i, (jet.psi0 i : ℝ) *
        ((jet.psi0 i : ℝ) + (jet.dpsi0 i : ℝ) * t
          + (jet.d2psi0 i : ℝ) * (t ^ 2 / 2))))
      = fun t : ℝ => Real.log (((dotProduct jet.psi0 jet.psi0 : ℚ) : ℝ)
          + ((dotProduct jet.psi0 jet.dpsi0 : ℚ) : ℝ) * t
          + ((dotProduct jet.psi0 jet.d2psi0 : ℚ) : ℝ) * (t ^ 2 / 2)) := by
    funext t
    congr 1
    have hterm : ∀ i ∈ (Finset.univ : Finset (Fin (2 ^ N))),
        (jet.psi0 i : ℝ) * ((jet.psi0 i : ℝ) + (jet.dpsi0 i : ℝ) * t
            + (jet.d2psi0 i : ℝ) * (t ^ 2 / 2))
          = (jet.psi0 i : ℝ) * (jet.psi0 i : ℝ)
            + ((jet.psi0 i : ℝ) * (jet.dpsi0 i : ℝ)) * t
            + ((jet.psi0 i : ℝ) * (jet.d2psi0 i : ℝ)) * (t ^ 2 / 2) :=
      fun i _ => by ring
    rw [Finset.sum_congr rfl hterm, Finset.sum_add_distrib, Finset.sum_add_distrib,
      ← Finset.sum_mul, ← Finset.sum_mul]
    have hA2 : (∑ i, (jet.psi0 i : ℝ) * (jet.psi0 i : ℝ))
        = ((dotProduct jet.psi0 jet.psi0 : ℚ) : ℝ) := by
      rw [Matrix.dotProduct]
      push_cast
      rfl
    have hB2 : (∑ i, (jet.psi0 i : ℝ) * (jet.dpsi0 i : ℝ))
        = ((dotProduct jet.psi0 jet.dpsi0 : ℚ) : ℝ) := by
      rw [Matrix.dotProduct]
      push_cast
      rfl
    have hC2 : (∑ i, (jet.psi0 i : ℝ) * (jet.d2psi0 i : ℝ))
        = ((dotProduct jet.psi0 jet.d2psi0 : ℚ) : ℝ) := by
      rw [Matrix.dotProduct]
      push_cast
      rfl
    rw [hA2, hB2, hC2]
  rw [hfun]
  have hA0 : ((dotProduct jet.psi0 jet.psi0 : ℚ) : ℝ) ≠ 0 := by
    have := hpos.ne'
    exact_mod_cast this
  rw [deriv2_log_quadratic _ _ _ hA0]
  exact negD2_cast (dotProduct jet.psi0 jet.psi0) (dotProduct jet.psi0 jet.dpsi0)
    (dotProduct jet.psi0 jet.d2psi0) hpos

/-- Witness for C2 at the concrete fixture. -/
theorem matrixAD_neg_second_deriv_witness :
    0 < dotProduct jetW.psi0 jetW.psi0 ∧
    ((chiF_matrixAD mW 300 jetW).2 : ℝ) =
      -(deriv (deriv fun t : ℝ =>
        Real.log (∑ i, (jetW.psi0 i : ℝ) *
          ((jetW.psi0 i : ℝ) + (jetW.dpsi0 i : ℝ) * t
            + (jetW.d2psi0 i : ℝ) * (t ^ 2 / 2)))) 0) :=
  ⟨by simp [jetW, Matrix.dotProduct, Fin.sum_univ_two],
   matrixAD_neg_second_deriv mW 300 jetW
     (by simp [jetW, Matrix.dotProduct, Fin.sum_univ_two])⟩
